import Mathlib

/-!
# Shallow embedding of `pynotest.py` (pytest-everyfunc)

The program detects functions whose whole body was never executed during a
test run. This file embeds its four core components:

* `parse_missed_lines`  — the line-range parser (source lines 10-30);
* `parse_coverage_report` — the `coverage report -m` text parser (lines 33-58);
* `get_functions_from_file` — the AST visitor extracting, per function,
  its name, `def` line and body lines (lines 61-112);
* `find_never_called_functions` — the matcher (lines 115-144).

Embedding conventions:

* Python strings are embedded as `List Char` (`Str`); `str.split`,
  `str.strip`, `str.startswith` are embedded character-by-character so that
  their semantics match Python's and are provable by induction.
* Python `int(s)` is embedded as `parseNat`, defined on nonempty all-digit
  strings and failing (`none`) otherwise; the inputs relevant here are
  decimal line numbers, where this agrees with `int`.
* Exceptions (`ValueError` from `int`, unpack errors, `AssertionError`)
  are embedded as `Option`: `none` means the Python code raises.
* Python `dict` (3.7+: insertion-ordered, assignment to an existing key
  replaces the value in place) is embedded as an association list with
  `dictInsert`.
* `set(...)` is embedded as `List.toFinset`.
* The Python AST is embedded as `Stmt`: `funcDef` covers `ast.FunctionDef`
  and `ast.AsyncFunctionDef` (the visitor treats them identically);
  `exprStmt isConst` covers `ast.Expr` statements, with `isConst = true`
  exactly when the expression is an `ast.Constant` (a string literal or any
  other literal — the code checks only `ast.Constant`); `otherStmt` covers
  every other statement kind, with `children` the statements nested inside
  it (class bodies, branches of `if`, ...). Expression statements contain
  no nested statements, so `exprStmt` has no children.
* The filesystem is embedded as a function `fs : Str → Option (List Stmt)`:
  `fs p = some m` means the path `p` exists and parses to module body `m`;
  `fs p = none` means `os.path.exists` is false at `p`.
* `print` diagnostics are embedded by returning the list of printed lines
  alongside the result.
-/

abbrev Str := List Char

/-- Embedding of Python `s.split(sep)` for a one-character separator
(used as `missing_str.split(",")` and `part.split("-")`).
`"".split(",") = [""]`, and separators at the ends produce empty parts,
exactly as in Python. -/
def splitOnChar (sep : Char) : Str → List Str
  | [] => [[]]
  | c :: cs =>
    if c = sep then [] :: splitOnChar sep cs
    else
      match splitOnChar sep cs with
      | [] => [[c]]
      | p :: ps => (c :: p) :: ps

/-- Embedding of Python `int(s)` restricted to the decimal tokens this
program feeds it: a nonempty digit string parses to its value, anything
else fails (in Python, raises `ValueError`). -/
def parseNat (cs : Str) : Option Nat :=
  if cs ≠ [] ∧ cs.all Char.isDigit then
    some (cs.foldl (fun n c => n * 10 + (c.toNat - 48)) 0)
  else none

/-- One iteration of the loop body of `parse_missed_lines`
(source lines 25-29): a token is either a hyphenated `start-end` range,
expanded to `range(start, end + 1)`, or a single number.
`none` embeds the `ValueError` raised by `int` on a non-numeric string and
the unpack error when the token has more than one hyphen. -/
def tokenParse (part : Str) : Option (List Nat) :=
  if part.contains '-' then
    match splitOnChar '-' part with
    | [s, e] =>
      match parseNat s, parseNat e with
      | some a, some b => some (List.range' a (b + 1 - a))
      | _, _ => none
    | _ => none
  else
    (parseNat part).map (fun n => [n])

/-- Embedding of `parse_missed_lines` (source lines 10-30): split the
input on commas and concatenate each token's lines, in order; the first
failing token aborts the whole parse (the exception propagates). -/
def parse_missed_lines (missing_str : Str) : Option (List Nat) :=
  (splitOnChar ',' missing_str).foldlM
    (fun lines part => (tokenParse part).map (fun ns => lines ++ ns)) []

/-- Embedding of Python `s.strip()`: drop leading and trailing whitespace. -/
def pyStrip (cs : Str) : Str :=
  ((cs.dropWhile Char.isWhitespace).reverse.dropWhile Char.isWhitespace).reverse

/-- Worker for `pySplit`, on input whose leading whitespace has been
dropped: with split budget `0` the whole remainder is one field; otherwise
take the maximal non-whitespace token and continue past the following
whitespace run with one less split in the budget. -/
def pySplitCore : Nat → Str → List Str
  | _, [] => []
  | 0, cs => [cs]
  | k + 1, cs =>
    cs.takeWhile (fun c => !c.isWhitespace)
      :: pySplitCore k ((cs.dropWhile (fun c => !c.isWhitespace)).dropWhile Char.isWhitespace)

/-- Embedding of Python `s.split(maxsplit=k)`: split on runs of whitespace,
doing at most `k` splits; once the budget is exhausted the remainder (with
leading whitespace consumed) is kept verbatim as the final field; an
all-whitespace remainder yields no field. -/
def pySplit (k : Nat) (cs : Str) : List Str :=
  pySplitCore k (cs.dropWhile Char.isWhitespace)

/-- Embedding of Python dict assignment `d[k] = v` on an insertion-ordered
association list: an existing key keeps its position and gets the new
value; a new key is appended at the end. -/
def dictInsert (k : Str) (v : Finset Nat) : List (Str × Finset Nat) → List (Str × Finset Nat)
  | [] => [(k, v)]
  | (k', v') :: rest => if k' = k then (k, v) :: rest else (k', v') :: dictInsert k v rest

/-- The dash prefix tested by `line.startswith("----")`. -/
def dashes : Str := ['-', '-', '-', '-']

/-- Embedding of the row loop of `parse_coverage_report` (source lines
50-57): stop at a dash line or a blank line; a stripped row is whitespace-
tokenized with `maxsplit=4`; only rows with more than 4 fields contribute
`filename ↦ set(parse_missed_lines(missing))`; a line-range parse failure
propagates (`none`). -/
def parseRows : List Str → List (Str × Finset Nat) → Option (List (Str × Finset Nat))
  | [], acc => some acc
  | line :: rest, acc =>
    if dashes.isPrefixOf line ∨ pyStrip line = [] then some acc
    else if (pySplit 4 (pyStrip line)).length > 4 then
      match parse_missed_lines (pyStrip ((pySplit 4 (pyStrip line)).getD 4 [])) with
      | none => none
      | some ns =>
        parseRows rest (dictInsert ((pySplit 4 (pyStrip line)).getD 0 []) ns.toFinset acc)
    else parseRows rest acc

/-- Embedding of `parse_coverage_report` (source lines 33-58). The stream
is the list of its lines. The first line (column header) is discarded; the
second must start with `----` (the `assert`, embedded as `none` on
failure — `readline` past the end returns the empty string, which also
fails the assert); the remaining lines go through `parseRows`. -/
def parse_coverage_report (input : List Str) : Option (List (Str × Finset Nat)) :=
  match input with
  | _header :: sepline :: rest =>
    if dashes.isPrefixOf sepline then parseRows rest [] else none
  | _ => none

/-- Embedded Python statement, as seen by `FuncVisitor`:
`funcDef` = `ast.FunctionDef` / `ast.AsyncFunctionDef` (both handled by
`visit_FunctionDef`); `exprStmt isConst` = an `ast.Expr` statement whose
value is (`isConst = true`) or is not an `ast.Constant`; `otherStmt` =
any other statement, with its nested statements as `children`.
`endLineno` is `none` when the node lacks an `end_lineno` attribute
(the `getattr(child, 'end_lineno', start)` default). -/
inductive Stmt where
  | funcDef (isAsync : Bool) (name : Str) (lineno : Nat) (endLineno : Option Nat) (body : List Stmt)
  | exprStmt (isConst : Bool) (lineno : Nat) (endLineno : Option Nat)
  | otherStmt (lineno : Nat) (endLineno : Option Nat) (children : List Stmt)

/-- `node.lineno`. -/
def Stmt.lineno : Stmt → Nat
  | .funcDef _ _ l _ _ => l
  | .exprStmt _ l _ => l
  | .otherStmt l _ _ => l

/-- `getattr(node, 'end_lineno', ...)`, as an `Option`. -/
def Stmt.endLineno : Stmt → Option Nat
  | .funcDef _ _ _ e _ => e
  | .exprStmt _ _ e => e
  | .otherStmt _ e _ => e

/-- The statements nested directly inside a statement (the function body,
the class body, the branches of an `if`, ...), visited by
`generic_visit`. -/
def Stmt.children : Stmt → List Stmt
  | .funcDef _ _ _ _ b => b
  | .exprStmt _ _ _ => []
  | .otherStmt _ _ c => c

/-- The test on source line 93:
`isinstance(child, ast.Expr) and isinstance(child.value, ast.Constant)`. -/
def Stmt.isExprConst : Stmt → Bool
  | .exprStmt c _ _ => c
  | _ => false

/-- The inclusive line span `range(start, end + 1)` of one statement
(source lines 95-97), with `end = getattr(child, 'end_lineno', start)`. -/
def stmtSpan (s : Stmt) : List Nat :=
  List.range' s.lineno (s.endLineno.getD s.lineno + 1 - s.lineno)

/-- The `code_lines` computation of `visit_FunctionDef` (source lines
90-97): iterate the direct body statements in order; a statement passing
the `ast.Expr`/`ast.Constant` test is skipped (at any position), every
other statement contributes its inclusive line span. -/
def bodyCodeLines (body : List Stmt) : List Nat :=
  body.flatMap (fun child => if child.isExprConst then [] else stmtSpan child)

mutual

/-- The visitor on one node (source lines 81-109): a function-definition
node appends `(node.name, node.lineno, code_lines)` and then
`generic_visit` recurses into its body; every other node only recurses
(`NodeVisitor.generic_visit`). Expression statements contain no nested
statements. -/
def visitStmt : Stmt → List (Str × Nat × List Nat)
  | .funcDef _ name lineno _ body => (name, lineno, bodyCodeLines body) :: visitList body
  | .exprStmt _ _ _ => []
  | .otherStmt _ _ children => visitList children

/-- `generic_visit` over a list of sibling statements, in source order. -/
def visitList : List Stmt → List (Str × Nat × List Nat)
  | [] => []
  | s :: rest => visitStmt s ++ visitList rest

end

/-- Embedding of `get_functions_from_file` (source lines 61-112), applied
to the already-parsed module body (file reading and `ast.parse` are the
filesystem boundary, embedded in `fs` below). -/
def get_functions_from_file (module : List Stmt) : List (Str × Nat × List Nat) :=
  visitList module

/-- `os.path.join(source_root, rel_path)` for the relative paths appearing
in coverage reports. -/
def os_path_join (root rel : Str) : Str := root ++ '/' :: rel

/-- The `File not found: {filepath}` diagnostic (source line 136). -/
def notFoundMsg (filepath : Str) : Str :=
  ("File not found: ".toList) ++ filepath

/-- The per-file inner loop of `find_never_called_functions` (source lines
140-142): keep `(rel_path, func_name, funcloc)` for every extracted
function all of whose body lines are in the file's missed-line set. -/
def processFile (rel : Str) (missed : Finset Nat) (module : List Stmt) :
    List (Str × Str × Nat) :=
  (get_functions_from_file module).filterMap
    (fun r => if r.2.2.all (· ∈ missed) then some (rel, r.1, r.2.1) else none)

/-- The outer loop of `find_never_called_functions` (source lines
133-142): for each report entry in order, a missing file prints a
diagnostic and is skipped; an existing file contributes its `processFile`
results. Returns (printed diagnostics, `never_called`). -/
def detectLoop (fs : Str → Option (List Stmt)) (root : Str) :
    List (Str × Finset Nat) → List Str × List (Str × Str × Nat)
  | [] => ([], [])
  | (rel, missed) :: rest =>
    match fs (os_path_join root rel) with
    | none =>
      let r := detectLoop fs root rest
      (notFoundMsg (os_path_join root rel) :: r.1, r.2)
    | some module =>
      let r := detectLoop fs root rest
      (r.1, processFile rel missed module ++ r.2)

/-- Embedding of `find_never_called_functions` (source lines 115-144):
parse the coverage report (failures propagate), then run the detection
loop over its entries in insertion order. -/
def find_never_called_functions (fs : Str → Option (List Stmt)) (source_root : Str)
    (input : List Str) : Option (List Str × List (Str × Str × Nat)) :=
  (parse_coverage_report input).map (detectLoop fs source_root)

/-- Lookup in the association-list embedding of a Python dict:
first (and only, for lists built by `dictInsert`) binding of the key. -/
def dictLookup (k : Str) : List (Str × Finset Nat) → Option (Finset Nat)
  | [] => none
  | (k', v) :: rest => if k' = k then some v else dictLookup k rest

/-- The contribution of one data row of the report, as a pure value:
`none` when the row has at most 4 fields (full coverage — the row is
absent from the map), `some (filename, set)` when a fifth field is present
and parses. Used to state what `parseRows` accumulates. -/
def rowEntry (line : Str) : Option (Str × Finset Nat) :=
  let parts := pySplit 4 (pyStrip line)
  if parts.length > 4 then
    (parse_missed_lines (pyStrip (parts.getD 4 []))).map
      (fun ns => (parts.getD 0 [], ns.toFinset))
  else none

/-- A report row that is neither a terminating dash line nor blank. -/
def isDataRow (line : Str) : Prop :=
  ¬ (dashes.isPrefixOf line = true) ∧ pyStrip line ≠ []

instance (line : Str) : Decidable (isDataRow line) := by
  unfold isDataRow; infer_instance

mutual

/-- All statements strictly inside a statement, at any depth:
the nesting relation of the syntax tree. -/
def Stmt.desc : Stmt → List Stmt
  | .funcDef _ _ _ _ b => descList b
  | .exprStmt _ _ _ => []
  | .otherStmt _ _ c => descList c

/-- All statements inside any element of a statement list, the elements
themselves included. -/
def descList : List Stmt → List Stmt
  | [] => []
  | s :: rest => s :: (Stmt.desc s ++ descList rest)

end

/-- The `FunctionRecord` a statement yields when visited: function
definitions yield `(name, lineno, code_lines)`, everything else nothing. -/
def Stmt.record : Stmt → Option (Str × Nat × List Nat)
  | .funcDef _ n l _ b => some (n, l, bodyCodeLines b)
  | _ => none

/-- Line-span sanity of one node with respect to its direct children:
the node carries an `end_lineno`, its span is nonempty, and every direct
child's span lies inside it. Real Python (3.8+) syntax trees satisfy this
by construction. -/
def spanOk (l : Nat) (e : Option Nat) (cs : List Stmt) : Bool :=
  match e with
  | none => false
  | some ev =>
    decide (l ≤ ev) &&
      cs.all (fun c => decide (l ≤ c.lineno) && decide (c.endLineno.getD c.lineno ≤ ev))

mutual

/-- Well-formed statement: `spanOk` at every level of the tree. -/
def Stmt.wfB : Stmt → Bool
  | .funcDef _ _ l e b => spanOk l e b && wfListB b
  | .exprStmt _ l e => spanOk l e []
  | .otherStmt l e c => spanOk l e c && wfListB c

/-- Well-formed statement list: every element is well-formed. -/
def wfListB : List Stmt → Bool
  | [] => true
  | s :: rest => Stmt.wfB s && wfListB rest

end

/-- A token of a serialized missing-lines list, following the spec's
description of the format: a single decimal number, or an inclusive
`start-end` range. Spec-side value for the round-trip property. -/
inductive RangeTok where
  | single (n : Nat)
  | range (a b : Nat)

/-- Well-formedness of a serialized token per the spec: a range has
`start ≤ end`. -/
def rangeTokOk : RangeTok → Bool
  | .single _ => true
  | .range a b => decide (a ≤ b)

/-- Decimal digits of `n`, most significant first (the canonical
serialization of one line number). -/
def natDigits (n : Nat) : List Char :=
  if _h : n < 10 then [Nat.digitChar n]
  else natDigits (n / 10) ++ [Nat.digitChar (n % 10)]
  termination_by n
  decreasing_by exact Nat.div_lt_self (by omega) (by omega)

/-- Serialization of one token: `n`, or `a-b`. -/
def tokStr : RangeTok → Str
  | .single n => natDigits n
  | .range a b => natDigits a ++ '-' :: natDigits b

/-- Join strings with a separator character (serialization counterpart of
`splitOnChar`). -/
def joinWith (sep : Char) : List Str → Str
  | [] => []
  | [p] => p
  | p :: ps => p ++ sep :: joinWith sep ps

/-- Spec-side serialization of a token list: comma-separated tokens. -/
def serializeToks (toks : List RangeTok) : Str :=
  joinWith ',' (toks.map tokStr)

/-- The list of line numbers a token represents. -/
def tokLines : RangeTok → List Nat
  | .single n => [n]
  | .range a b => List.range' a (b + 1 - a)

/-- The set of line numbers a token represents. -/
def tokSet : RangeTok → Finset Nat
  | .single n => {n}
  | .range a b => Finset.Icc a b

/-! ## Infrastructure lemmas -/

theorem splitOnChar_ne_nil (sep : Char) (cs : Str) : splitOnChar sep cs ≠ [] := by
  induction cs with
  | nil => simp [splitOnChar]
  | cons c cs ih =>
    simp only [splitOnChar]
    split
    · simp
    · split
      · simp
      · simp

theorem splitOnChar_of_not_mem {sep : Char} {cs : Str} (h : sep ∉ cs) :
    splitOnChar sep cs = [cs] := by
  induction cs with
  | nil => rfl
  | cons c cs ih =>
    simp only [List.mem_cons, not_or] at h
    simp only [splitOnChar]
    rw [if_neg (fun hc => h.1 hc.symm), ih h.2]

theorem splitOnChar_append_cons {sep : Char} {xs : Str} (ys : Str) (h : sep ∉ xs) :
    splitOnChar sep (xs ++ sep :: ys) = xs :: splitOnChar sep ys := by
  induction xs with
  | nil => simp [splitOnChar]
  | cons c cs ih =>
    simp only [List.mem_cons, not_or] at h
    have hcs : ¬ c = sep := fun hc => h.1 hc.symm
    simp only [List.cons_append, splitOnChar, List.append_eq, ih h.2, if_neg hcs]

theorem joinWith_not_mem_splitOnChar {sep : Char} {ps : List Str} (hne : ps ≠ [])
    (h : ∀ p ∈ ps, sep ∉ p) : splitOnChar sep (joinWith sep ps) = ps := by
  induction ps with
  | nil => exact absurd rfl hne
  | cons p ps ih =>
    cases ps with
    | nil => exact splitOnChar_of_not_mem (h p (by simp))
    | cons q qs =>
      have hj : joinWith sep (p :: q :: qs) = p ++ sep :: joinWith sep (q :: qs) := rfl
      rw [hj, splitOnChar_append_cons _ (h p (by simp)),
        ih (by simp) (fun r hr => h r (List.mem_cons_of_mem _ hr))]

theorem natDigits_ne_nil (n : Nat) : natDigits n ≠ [] := by
  unfold natDigits
  split <;> simp

theorem natDigits_all_digit (n : Nat) : ∀ c ∈ natDigits n, c.isDigit = true := by
  induction n using Nat.strong_induction_on with
  | _ n ih =>
    unfold natDigits
    split
    · rename_i h
      intro c hc
      simp only [List.mem_singleton] at hc
      subst hc
      interval_cases n <;> decide
    · rename_i h
      intro c hc
      rcases List.mem_append.mp hc with h1 | h2
      · exact ih (n / 10) (Nat.div_lt_self (by omega) (by omega)) c h1
      · simp only [List.mem_singleton] at h2
        subst h2
        have : n % 10 < 10 := Nat.mod_lt _ (by omega)
        interval_cases h : (n % 10) <;> decide

theorem digit_not_dash {c : Char} (h : c.isDigit = true) : c ≠ '-' := by
  intro hc; subst hc; simp [Char.isDigit] at h

theorem digit_not_comma {c : Char} (h : c.isDigit = true) : c ≠ ',' := by
  intro hc; subst hc; simp [Char.isDigit] at h

theorem dash_not_mem_natDigits (n : Nat) : '-' ∉ natDigits n := by
  intro hmem
  exact digit_not_dash (natDigits_all_digit n '-' hmem) rfl

theorem comma_not_mem_natDigits (n : Nat) : ',' ∉ natDigits n := by
  intro hmem
  exact digit_not_comma (natDigits_all_digit n ',' hmem) rfl

theorem parseNat_natDigits (n : Nat) : parseNat (natDigits n) = some n := by
  have key : ∀ m : Nat, (natDigits m).foldl (fun n c => n * 10 + (c.toNat - 48)) 0 = m := by
    intro m
    induction m using Nat.strong_induction_on with
    | _ m ih =>
      unfold natDigits
      split
      · rename_i h
        interval_cases m <;> decide
      · rename_i h
        rw [List.foldl_append, ih (m / 10) (Nat.div_lt_self (by omega) (by omega))]
        simp only [List.foldl_cons, List.foldl_nil]
        have h10 : m % 10 < 10 := Nat.mod_lt _ (by omega)
        have hd : (Nat.digitChar (m % 10)).toNat - 48 = m % 10 := by
          interval_cases h : (m % 10) <;> decide
        rw [hd]
        omega
  unfold parseNat
  rw [if_pos ⟨natDigits_ne_nil n, List.all_eq_true.mpr (natDigits_all_digit n)⟩, key]

/-- Token-by-token reading of the missed-lines format: the lines of each
token in order, failing as soon as one token fails. Spec-side
characterization used to reason about `parse_missed_lines`. -/
def tokensParse : List Str → Option (List Nat)
  | [] => some []
  | p :: ps =>
    match tokenParse p, tokensParse ps with
    | some ns, some rest => some (ns ++ rest)
    | _, _ => none

/-- `parse_missed_lines` in direct style: parse every comma-separated
token and concatenate, failing iff some token fails. -/
theorem parse_missed_lines_eq_tokensParse (s : Str) :
    parse_missed_lines s = tokensParse (splitOnChar ',' s) := by
  unfold parse_missed_lines
  suffices h : ∀ (parts : List Str) (lines : List Nat),
      parts.foldlM (fun lines part => (tokenParse part).map (fun ns => lines ++ ns)) lines
        = (tokensParse parts).map (fun ns => lines ++ ns) by
    simpa using h (splitOnChar ',' s) []
  intro parts
  induction parts with
  | nil => intro lines; simp [tokensParse]
  | cons p ps ih =>
    intro lines
    simp only [List.foldlM_cons, tokensParse]
    cases hp : tokenParse p with
    | none => simp
    | some ns =>
      simp only [Option.map_some', Option.some_bind, ih]
      cases hps : tokensParse ps <;> simp [List.append_assoc]

theorem tokensParse_none_of_fail {parts : List Str} {p : Str}
    (hp : p ∈ parts) (hfail : tokenParse p = none) : tokensParse parts = none := by
  induction parts with
  | nil => cases hp
  | cons q qs ih =>
    simp only [tokensParse]
    rcases List.mem_cons.mp hp with h1 | h2
    · subst h1; simp [hfail]
    · cases hq : tokenParse q <;> simp [ih h2]

theorem parse_missed_lines_none_of_token_fail {s : Str} {p : Str}
    (hp : p ∈ splitOnChar ',' s) (hfail : tokenParse p = none) :
    parse_missed_lines s = none := by
  rw [parse_missed_lines_eq_tokensParse]
  exact tokensParse_none_of_fail hp hfail

theorem tokenParse_single (n : Nat) : tokenParse (natDigits n) = some [n] := by
  have hc : ¬ (natDigits n).contains '-' = true := by
    simp only [List.contains, List.elem_eq_mem, decide_eq_true_eq]
    exact dash_not_mem_natDigits n
  unfold tokenParse
  rw [if_neg hc, parseNat_natDigits]
  rfl

theorem tokenParse_range (a b : Nat) :
    tokenParse (natDigits a ++ '-' :: natDigits b) = some (List.range' a (b + 1 - a)) := by
  have hc : (natDigits a ++ '-' :: natDigits b).contains '-' = true := by
    simp only [List.contains, List.elem_eq_mem, decide_eq_true_eq]
    exact List.mem_append.mpr (Or.inr (List.mem_cons_self _ _))
  unfold tokenParse
  rw [if_pos hc, splitOnChar_append_cons _ (dash_not_mem_natDigits a),
    splitOnChar_of_not_mem (dash_not_mem_natDigits b)]
  simp [parseNat_natDigits]

theorem comma_not_mem_tokStr (t : RangeTok) : ',' ∉ tokStr t := by
  cases t with
  | single n => exact comma_not_mem_natDigits n
  | range a b =>
    intro hmem
    rcases List.mem_append.mp hmem with h1 | h2
    · exact comma_not_mem_natDigits a h1
    · rcases List.mem_cons.mp h2 with h3 | h4
      · exact absurd h3 (by decide)
      · exact comma_not_mem_natDigits b h4

theorem dictLookup_dictInsert_self (k : Str) (v : Finset Nat) (m : List (Str × Finset Nat)) :
    dictLookup k (dictInsert k v m) = some v := by
  induction m with
  | nil => simp [dictInsert, dictLookup]
  | cons e rest ih =>
    obtain ⟨k', v'⟩ := e
    simp only [dictInsert]
    by_cases h : k' = k
    · simp [h, dictLookup]
    · simp [h, dictLookup, ih]

theorem dictLookup_dictInsert_ne {k' k : Str} (v : Finset Nat) (m : List (Str × Finset Nat))
    (h : k' ≠ k) : dictLookup k' (dictInsert k v m) = dictLookup k' m := by
  induction m with
  | nil =>
    have hne : ¬ k = k' := fun hc => h hc.symm
    simp [dictInsert, dictLookup, hne]
  | cons e rest ih =>
    obtain ⟨k'', v''⟩ := e
    simp only [dictInsert]
    by_cases h2 : k'' = k
    · subst h2
      have hne : ¬ k'' = k' := fun hc => h hc.symm
      rw [if_pos rfl]
      simp only [dictLookup]
      rw [if_neg hne, if_neg hne]
    · simp only [if_neg h2, dictLookup]
      by_cases h3 : k'' = k'
      · simp [h3]
      · simp [h3, ih]

theorem mem_dictInsert {e : Str × Finset Nat} {k : Str} {v : Finset Nat}
    {m : List (Str × Finset Nat)} (h : e ∈ dictInsert k v m) : e = (k, v) ∨ e ∈ m := by
  induction m with
  | nil => simpa [dictInsert] using h
  | cons e' rest ih =>
    obtain ⟨k', v'⟩ := e'
    simp only [dictInsert] at h
    by_cases h2 : k' = k
    · rw [if_pos h2] at h
      rcases List.mem_cons.mp h with h3 | h4
      · exact Or.inl h3
      · exact Or.inr (List.mem_cons_of_mem _ h4)
    · rw [if_neg h2] at h
      rcases List.mem_cons.mp h with h3 | h4
      · exact Or.inr (h3 ▸ List.mem_cons_self _ _)
      · rcases ih h4 with h5 | h6
        · exact Or.inl h5
        · exact Or.inr (List.mem_cons_of_mem _ h6)

/-! ## Claim theorems -/

/-- C2 (code bug witness evaluation): at the failing input — a function
`f` defined on line 1 whose body is a non-docstring statement on line 2
followed by a bare string-literal expression statement on line 3 — the
extractor omits line 3 from the body lines: `visit_FunctionDef` skips
every `ast.Expr`/`ast.Constant` statement at any position, while the
claim (and the code's own comment, "Skip docstring (which is always the
first expr if present)") call for skipping only a first-position
documentation string, under which `bodyLines` would be `[2, 3]`. -/
theorem constant_skip_ignores_position :
    get_functions_from_file
      [Stmt.funcDef false ['f'] 1 (some 3)
        [Stmt.otherStmt 2 (some 2) [], Stmt.exprStmt true 3 (some 3)]]
      = [(['f'], 1, [2])] := rfl

/-- C3 counterexample: the reversed-range token `5-3` does not propagate
as a parse failure — `parse_missed_lines` succeeds, returning no lines at
all, so the data the token represents is silently omitted. -/
theorem reversed_range_parses_to_nothing :
    parse_missed_lines ['5', '-', '3'] = some [] := rfl

/-- C3 (amended): a failing token makes the whole parse fail — in
particular every non-numeric hyphen-free token fails — but a reversed
range `a-b` with `b < a` (both endpoints numeric) is not a parse
failure: the parser accepts it and produces no lines for it, silently
dropping the data it represents. -/
theorem malformed_token_propagation :
    (∀ s p, p ∈ splitOnChar ',' s → tokenParse p = none → parse_missed_lines s = none)
    ∧ (∀ p : Str, ¬ p.contains '-' = true → parseNat p = none → tokenParse p = none)
    ∧ (∀ a b : Nat, b < a → parse_missed_lines (natDigits a ++ '-' :: natDigits b) = some []) := by
  refine ⟨fun s p hp hfail => parse_missed_lines_none_of_token_fail hp hfail,
    fun p hdash hnum => ?_, fun a b hba => ?_⟩
  · unfold tokenParse
    rw [if_neg hdash, hnum]
    rfl
  · have hsplit : splitOnChar ',' (natDigits a ++ '-' :: natDigits b)
        = [natDigits a ++ '-' :: natDigits b] := by
      refine splitOnChar_of_not_mem ?_
      intro hmem
      rcases List.mem_append.mp hmem with h1 | h2
      · exact comma_not_mem_natDigits a h1
      · rcases List.mem_cons.mp h2 with h3 | h4
        · exact absurd h3 (by decide)
        · exact comma_not_mem_natDigits b h4
    rw [parse_missed_lines_eq_tokensParse, hsplit]
    simp only [tokensParse, tokenParse_range]
    have hz : b + 1 - a = 0 := by omega
    simp [hz]

theorem malformed_token_propagation_witness :
    (['x'] ∈ splitOnChar ',' ['1', ',', 'x'] ∧ tokenParse ['x'] = none
      ∧ parse_missed_lines ['1', ',', 'x'] = none)
    ∧ (¬ (['q'] : Str).contains '-' = true ∧ parseNat ['q'] = none ∧ tokenParse ['q'] = none)
    ∧ (7 < 9 ∧ parse_missed_lines (natDigits 9 ++ '-' :: natDigits 7) = some []) := by
  refine ⟨⟨by decide, rfl, malformed_token_propagation.1 ['1', ',', 'x'] ['x'] (by decide) rfl⟩,
    ⟨by decide, rfl, malformed_token_propagation.2.1 ['q'] (by decide) rfl⟩,
    ⟨by omega, malformed_token_propagation.2.2 9 7 (by omega)⟩⟩

/-- C6 counterexample: with second line `----x` — which is not a run of
dash characters — the parser does not raise: the `assert` checks only
that the line starts with four dashes, so the report is accepted (here,
yielding the empty mapping). -/
theorem sep_line_not_all_dash_accepted :
    (¬ ∀ c ∈ (['-', '-', '-', '-', 'x'] : Str), c = '-')
    ∧ parse_coverage_report [['h'], ['-', '-', '-', '-', 'x']] = some [] := by
  refine ⟨fun h => ?_, rfl⟩
  have := h 'x' (by simp)
  simp at this

/-- C6 (amended): the separator check is exactly "the second line starts
with `----`": when the input has fewer than two lines, or its second
line does not start with four dash characters, parsing fails before any
data row is processed and produces no partial mapping. -/
theorem sep_line_prefix_check :
    parse_coverage_report [] = none
    ∧ (∀ h, parse_coverage_report [h] = none)
    ∧ (∀ h sep rest, ¬ dashes.isPrefixOf sep = true →
        parse_coverage_report (h :: sep :: rest) = none) := by
  refine ⟨rfl, fun h => rfl, fun h sep rest hne => ?_⟩
  simp [parse_coverage_report, hne]

theorem sep_line_prefix_check_witness :
    (¬ dashes.isPrefixOf ['x'] = true)
    ∧ parse_coverage_report [['h'], ['x'], ['r']] = none :=
  ⟨by decide, sep_line_prefix_check.2.2 ['h'] ['x'] [['r']] (by decide)⟩

/-- C7: a report entry whose joined path does not exist under the source
root emits the `File not found` diagnostic, contributes zero detection
entries for that file, and leaves the processing of the remaining
entries unchanged (same diagnostics, same detections). -/
theorem missing_file_skip (fs : Str → Option (List Stmt)) (root rel : Str)
    (missed : Finset Nat) (rest : List (Str × Finset Nat))
    (h : fs (os_path_join root rel) = none) :
    detectLoop fs root ((rel, missed) :: rest)
      = (notFoundMsg (os_path_join root rel) :: (detectLoop fs root rest).1,
          (detectLoop fs root rest).2) := by
  simp [detectLoop, h]

theorem missing_file_skip_witness :
    ((fun _ : Str => (none : Option (List Stmt))) (os_path_join ['.'] ['a']) = none)
    ∧ detectLoop (fun _ => none) ['.'] [(['a'], ∅)]
        = ([notFoundMsg (os_path_join ['.'] ['a'])], []) := by
  refine ⟨rfl, ?_⟩
  have h := missing_file_skip (fun _ => none) ['.'] ['a'] ∅ [] rfl
  rw [h]
  rfl

theorem filterMap_if_eq_filter_map {α β : Type} (l : List α) (p : α → Bool) (g : α → β) :
    l.filterMap (fun r => if p r then some (g r) else none) = (l.filter p).map g := by
  induction l with
  | nil => rfl
  | cons a l ih =>
    by_cases h : p a
    · simp [List.filterMap_cons, List.filter_cons, h, ih]
    · simp [List.filterMap_cons, List.filter_cons, h, ih]

theorem processFile_mem_detectLoop (fs : Str → Option (List Stmt)) (root : Str)
    (report : List (Str × Finset Nat)) (rel : Str) (missed : Finset Nat) (module : List Stmt)
    (hrep : (rel, missed) ∈ report) (hfs : fs (os_path_join root rel) = some module) :
    ∀ x ∈ processFile rel missed module, x ∈ (detectLoop fs root report).2 := by
  induction report with
  | nil => cases hrep
  | cons e rest ih =>
    obtain ⟨k, s⟩ := e
    intro x hx
    rcases List.mem_cons.mp hrep with h1 | h2
    · obtain ⟨hk, hs⟩ := Prod.mk.injEq .. ▸ h1
      subst hk
      subst hs
      simp only [detectLoop, hfs]
      exact List.mem_append.mpr (Or.inl hx)
    · cases hfs2 : fs (os_path_join root k) with
      | none =>
        simp only [detectLoop, hfs2]
        exact ih h2 x hx
      | some m2 =>
        simp only [detectLoop, hfs2]
        exact List.mem_append.mpr (Or.inr (ih h2 x hx))

/-- C1: for a file of the parsed coverage report that resolves to an
existing module, the per-file detection keeps exactly the extracted
functions all of whose body lines lie in the file's missed-line set
(stated as a filter over the extractor's output), and — the vacuous
case — a function whose body-line list is empty is always detected,
whatever the missed-line set contains; detected functions appear in the
overall detection result. -/
theorem never_called_iff_body_subset (fs : Str → Option (List Stmt)) (root : Str)
    (report : List (Str × Finset Nat)) (rel : Str) (missed : Finset Nat) (module : List Stmt)
    (hrep : (rel, missed) ∈ report) (hfs : fs (os_path_join root rel) = some module) :
    processFile rel missed module
      = ((get_functions_from_file module).filter
          (fun r => decide (∀ l ∈ r.2.2, l ∈ missed))).map (fun r => (rel, r.1, r.2.1))
    ∧ (∀ name loc body, (name, loc, body) ∈ get_functions_from_file module →
        (∀ l ∈ body, l ∈ missed) → (rel, name, loc) ∈ (detectLoop fs root report).2)
    ∧ (∀ name loc, (name, loc, ([] : List Nat)) ∈ get_functions_from_file module →
        (rel, name, loc) ∈ (detectLoop fs root report).2) := by
  have h1 : processFile rel missed module
      = ((get_functions_from_file module).filter
          (fun r => decide (∀ l ∈ r.2.2, l ∈ missed))).map (fun r => (rel, r.1, r.2.1)) := by
    unfold processFile
    rw [filterMap_if_eq_filter_map]
    congr 1
    apply List.filter_congr
    intro r _
    apply Bool.eq_iff_iff.mpr
    simp [List.all_eq_true]
  refine ⟨h1, fun name loc body hmem hsub => ?_, fun name loc hmem => ?_⟩
  · apply processFile_mem_detectLoop fs root report rel missed module hrep hfs
    unfold processFile
    refine List.mem_filterMap.mpr ⟨(name, loc, body), hmem, ?_⟩
    have hall : body.all (fun l => decide (l ∈ missed)) = true := by
      simp only [List.all_eq_true, decide_eq_true_eq]
      exact hsub
    simp [hall]
  · apply processFile_mem_detectLoop fs root report rel missed module hrep hfs
    unfold processFile
    exact List.mem_filterMap.mpr ⟨(name, loc, []), hmem, by simp⟩

theorem never_called_iff_body_subset_witness :
    ((['a'], ({2} : Finset Nat)) ∈ [((['a'] : Str), ({2} : Finset Nat))])
    ∧ ((fun p : Str => if p = os_path_join ['.'] ['a']
          then some [Stmt.funcDef false ['f'] 1 (some 2) [Stmt.otherStmt 2 (some 2) []]]
          else none) (os_path_join ['.'] ['a'])
        = some [Stmt.funcDef false ['f'] 1 (some 2) [Stmt.otherStmt 2 (some 2) []]])
    ∧ (['a'], ['f'], 1) ∈ (detectLoop
        (fun p : Str => if p = os_path_join ['.'] ['a']
          then some [Stmt.funcDef false ['f'] 1 (some 2) [Stmt.otherStmt 2 (some 2) []]]
          else none)
        ['.'] [(['a'], {2})]).2 := by
  refine ⟨by simp, by simp, ?_⟩
  have h := never_called_iff_body_subset
    (fun p : Str => if p = os_path_join ['.'] ['a']
        then some [Stmt.funcDef false ['f'] 1 (some 2) [Stmt.otherStmt 2 (some 2) []]]
        else none)
    ['.'] [(['a'], {2})] ['a'] {2}
    [Stmt.funcDef false ['f'] 1 (some 2) [Stmt.otherStmt 2 (some 2) []]]
    (by simp) (by simp)
  exact h.2.1 ['f'] 1 [2] (List.mem_singleton.mpr rfl) (by decide)

mutual

theorem record_mem_visitStmt (g : Stmt) (r : Str × Nat × List Nat) (s : Stmt)
    (hg : g ∈ Stmt.desc s) (hr : g.record = some r) : r ∈ visitStmt s := by
  cases s with
  | funcDef isA n ln e b =>
    exact List.mem_cons_of_mem _ (record_mem_visitList g r b hg hr)
  | exprStmt c ln e => cases hg
  | otherStmt ln e c =>
    exact record_mem_visitList g r c hg hr

theorem record_mem_visitList (g : Stmt) (r : Str × Nat × List Nat) (l : List Stmt)
    (hg : g ∈ descList l) (hr : g.record = some r) : r ∈ visitList l := by
  cases l with
  | nil => cases hg
  | cons s rest =>
    show r ∈ visitStmt s ++ visitList rest
    rcases List.mem_cons.mp hg with h1 | h2
    · subst h1
      cases g with
      | funcDef isA n ln e b =>
        simp only [Stmt.record, Option.some.injEq] at hr
        refine List.mem_append.mpr (Or.inl ?_)
        rw [← hr]
        exact List.mem_cons_self _ _
      | exprStmt c ln e => simp [Stmt.record] at hr
      | otherStmt ln e c => simp [Stmt.record] at hr
    · rcases List.mem_append.mp h2 with h3 | h4
      · exact List.mem_append.mpr (Or.inl (record_mem_visitStmt g r s h3 hr))
      · exact List.mem_append.mpr (Or.inr (record_mem_visitList g r rest h4 hr))

end

/-- C9: the detection result is ordered: (1) it is the in-order
concatenation, over the report's rows, of each existing file's per-file
detections; (2) a file's detections are a subsequence of the extractor's
records in encounter order; (3) the visitor emits a function's own
record before anything from its body, and (4) every function nested in
the body has its record inside the body's record list (hence after the
enclosing function's record). -/
theorem detection_result_order :
    (∀ (fs : Str → Option (List Stmt)) (root : Str) (report : List (Str × Finset Nat)),
      (detectLoop fs root report).2
        = report.flatMap (fun e =>
            match fs (os_path_join root e.1) with
            | none => []
            | some m => processFile e.1 e.2 m))
    ∧ (∀ rel missed module, (processFile rel missed module).Sublist
        ((get_functions_from_file module).map (fun r => (rel, r.1, r.2.1))))
    ∧ (∀ isA name ln e body, visitStmt (Stmt.funcDef isA name ln e body)
        = (name, ln, bodyCodeLines body) :: visitList body)
    ∧ (∀ (body : List Stmt) g r, g ∈ descList body → Stmt.record g = some r →
        r ∈ visitList body) := by
  refine ⟨fun fs root report => ?_, fun rel missed module => ?_,
    fun isA name ln e body => rfl, fun body g r hg hr => record_mem_visitList g r body hg hr⟩
  · induction report with
    | nil => rfl
    | cons entry rest ih =>
      obtain ⟨k, s⟩ := entry
      cases hfs : fs (os_path_join root k) with
      | none => simpa [detectLoop, hfs] using ih
      | some m => simp [detectLoop, hfs, ih]
  · unfold processFile
    rw [filterMap_if_eq_filter_map]
    exact (List.filter_sublist _).map _

theorem detection_result_order_witness :
    (detectLoop (fun _ => none) ['.'] [(['a'], ∅)]).2 = []
    ∧ (['g'], 3, [4]) ∈ visitList
        [Stmt.exprStmt true 2 (some 2),
          Stmt.funcDef false ['g'] 3 (some 4) [Stmt.otherStmt 4 (some 4) []]] := by
  constructor
  · rw [detection_result_order.1 (fun _ => none) ['.'] [(['a'], ∅)]]
    rfl
  · refine detection_result_order.2.2.2
      [Stmt.exprStmt true 2 (some 2),
        Stmt.funcDef false ['g'] 3 (some 4) [Stmt.otherStmt 4 (some 4) []]]
      (Stmt.funcDef false ['g'] 3 (some 4) [Stmt.otherStmt 4 (some 4) []])
      (['g'], 3, [4]) ?_ rfl
    exact List.Mem.tail _ (List.Mem.head _)

theorem spanOk_facts {l : Nat} {e : Option Nat} {cs : List Stmt} (h : spanOk l e cs = true) :
    ∃ ev, e = some ev ∧ l ≤ ev
      ∧ ∀ c ∈ cs, l ≤ c.lineno ∧ c.endLineno.getD c.lineno ≤ ev := by
  cases e with
  | none => simp [spanOk] at h
  | some ev =>
    simp only [spanOk, Bool.and_eq_true, decide_eq_true_eq, List.all_eq_true] at h
    exact ⟨ev, rfl, h.1, fun c hc => by
      have := h.2 c hc
      simpa using this⟩

theorem mem_stmtSpan_iff {s : Stmt} {x : Nat} :
    x ∈ stmtSpan s ↔ s.lineno ≤ x ∧ x < s.lineno + (s.endLineno.getD s.lineno + 1 - s.lineno) := by
  unfold stmtSpan
  exact List.mem_range'_1

mutual

theorem desc_span_stmt (s g : Stmt) (hwf : s.wfB = true) (hg : g ∈ Stmt.desc s) :
    ∀ x ∈ stmtSpan g, x ∈ stmtSpan s := by
  cases s with
  | funcDef isA n ln e b =>
    rw [show (Stmt.funcDef isA n ln e b).wfB = (spanOk ln e b && wfListB b) from rfl,
      Bool.and_eq_true] at hwf
    obtain ⟨ev, he, hlev, hbound⟩ := spanOk_facts hwf.1
    obtain ⟨c, hc, _, hspan⟩ := desc_span_list b g hwf.2 hg
    intro x hx
    have hxc := mem_stmtSpan_iff.mp (hspan x hx)
    have hcb := hbound c hc
    rw [mem_stmtSpan_iff]
    subst he
    simp only [Stmt.lineno, Stmt.endLineno, Option.getD_some]
    omega
  | exprStmt c ln e => cases hg
  | otherStmt ln e cs =>
    rw [show (Stmt.otherStmt ln e cs).wfB = (spanOk ln e cs && wfListB cs) from rfl,
      Bool.and_eq_true] at hwf
    obtain ⟨ev, he, hlev, hbound⟩ := spanOk_facts hwf.1
    obtain ⟨c, hc, _, hspan⟩ := desc_span_list cs g hwf.2 hg
    intro x hx
    have hxc := mem_stmtSpan_iff.mp (hspan x hx)
    have hcb := hbound c hc
    rw [mem_stmtSpan_iff]
    subst he
    simp only [Stmt.lineno, Stmt.endLineno, Option.getD_some]
    omega

theorem desc_span_list (l : List Stmt) (g : Stmt) (hwf : wfListB l = true)
    (hg : g ∈ descList l) :
    ∃ c ∈ l, (g = c ∨ g ∈ Stmt.desc c) ∧ ∀ x ∈ stmtSpan g, x ∈ stmtSpan c := by
  cases l with
  | nil => cases hg
  | cons s rest =>
    rw [show wfListB (s :: rest) = (s.wfB && wfListB rest) from rfl, Bool.and_eq_true] at hwf
    rcases List.mem_cons.mp hg with h1 | h2
    · exact ⟨s, List.mem_cons_self _ _, Or.inl h1, fun x hx => h1 ▸ hx⟩
    · rcases List.mem_append.mp h2 with h3 | h4
      · exact ⟨s, List.mem_cons_self _ _, Or.inr h3, desc_span_stmt s g hwf.1 h3⟩
      · obtain ⟨c, hc, hgc, hspan⟩ := desc_span_list rest g hwf.2 h4
        exact ⟨c, List.mem_cons_of_mem _ hc, hgc, hspan⟩

end

theorem stmtSpan_sub_bodyCodeLines {body : List Stmt} {c : Stmt} (hc : c ∈ body)
    (hnc : c.isExprConst = false) : ∀ x ∈ stmtSpan c, x ∈ bodyCodeLines body := by
  intro x hx
  unfold bodyCodeLines
  refine List.mem_flatMap.mpr ⟨c, hc, ?_⟩
  simp [hnc, hx]

/-- C4: a function `g` nested anywhere inside the body of an enclosing
function: (1) `g`'s own record appears in the visitor output for the
enclosing function (its own independent `FunctionRecord`); for a
line-span-well-formed body, (2) `g`'s full line span is contained in the
enclosing function's body lines, and therefore (3) whenever every body
line of the enclosing function is in the file's missed-line set — the
condition under which the enclosing function is flagged — every line of
`g`'s span is in the missed-line set too. -/
theorem nested_function_record_containment
    (body : List Stmt) (g : Stmt) (r : Str × Nat × List Nat)
    (hg : g ∈ descList body) (hr : Stmt.record g = some r) :
    (∀ isA name ln e, r ∈ visitStmt (Stmt.funcDef isA name ln e body))
    ∧ (wfListB body = true → ∀ x ∈ stmtSpan g, x ∈ bodyCodeLines body)
    ∧ (wfListB body = true → ∀ missed : Finset Nat,
        (∀ x ∈ bodyCodeLines body, x ∈ missed) → ∀ x ∈ stmtSpan g, x ∈ missed) := by
  have hbody : wfListB body = true → ∀ x ∈ stmtSpan g, x ∈ bodyCodeLines body := by
    intro hwf
    obtain ⟨c, hc, hgc, hspan⟩ := desc_span_list body g hwf hg
    have hnc : c.isExprConst = false := by
      rcases hgc with h1 | h2
      · subst h1
        cases g with
        | funcDef isA n ln e b => rfl
        | exprStmt cc ln e => simp [Stmt.record] at hr
        | otherStmt ln e cs => simp [Stmt.record] at hr
      · cases c with
        | funcDef isA n ln e b => rfl
        | exprStmt cc ln e => cases h2
        | otherStmt ln e cs => rfl
    exact fun x hx => stmtSpan_sub_bodyCodeLines hc hnc x (hspan x hx)
  refine ⟨fun isA name ln e => ?_, hbody, fun hwf missed hmiss x hx => hmiss x (hbody hwf x hx)⟩
  exact List.mem_cons_of_mem _ (record_mem_visitList g r body hg hr)

theorem nested_function_record_containment_witness :
    (Stmt.funcDef false ['g'] 3 (some 4) [Stmt.otherStmt 4 (some 4) []]
        ∈ descList [Stmt.exprStmt true 2 (some 2),
          Stmt.funcDef false ['g'] 3 (some 4) [Stmt.otherStmt 4 (some 4) []]])
    ∧ Stmt.record (Stmt.funcDef false ['g'] 3 (some 4) [Stmt.otherStmt 4 (some 4) []])
        = some (['g'], 3, [4])
    ∧ wfListB [Stmt.exprStmt true 2 (some 2),
        Stmt.funcDef false ['g'] 3 (some 4) [Stmt.otherStmt 4 (some 4) []]] = true
    ∧ (['g'], 3, [4]) ∈ visitStmt (Stmt.funcDef false ['f'] 1 (some 4)
        [Stmt.exprStmt true 2 (some 2),
          Stmt.funcDef false ['g'] 3 (some 4) [Stmt.otherStmt 4 (some 4) []]])
    ∧ (∀ x ∈ stmtSpan (Stmt.funcDef false ['g'] 3 (some 4) [Stmt.otherStmt 4 (some 4) []]),
        x ∈ ({2, 3, 4} : Finset Nat)) := by
  have hg : Stmt.funcDef false ['g'] 3 (some 4) [Stmt.otherStmt 4 (some 4) []]
      ∈ descList [Stmt.exprStmt true 2 (some 2),
        Stmt.funcDef false ['g'] 3 (some 4) [Stmt.otherStmt 4 (some 4) []]] :=
    List.Mem.tail _ (List.Mem.head _)
  have h := nested_function_record_containment
    [Stmt.exprStmt true 2 (some 2),
      Stmt.funcDef false ['g'] 3 (some 4) [Stmt.otherStmt 4 (some 4) []]]
    (Stmt.funcDef false ['g'] 3 (some 4) [Stmt.otherStmt 4 (some 4) []])
    (['g'], 3, [4]) hg rfl
  refine ⟨hg, rfl, rfl, h.1 false ['f'] 1 (some 4), ?_⟩
  exact h.2.2 rfl {2, 3, 4} (by decide)

theorem takeWhile_of_all {p : Char → Bool} {t : Str} (h : t.all p = true) :
    t.takeWhile p = t := by
  induction t with
  | nil => rfl
  | cons c cs ih =>
    simp only [List.all_cons, Bool.and_eq_true] at h
    simp [List.takeWhile_cons, h.1, ih h.2]

theorem dropWhile_of_all {p : Char → Bool} {t : Str} (h : t.all p = true) :
    t.dropWhile p = [] := by
  induction t with
  | nil => rfl
  | cons c cs ih =>
    simp only [List.all_cons, Bool.and_eq_true] at h
    simp [List.dropWhile_cons, h.1, ih h.2]

theorem takeWhile_token {t r : Str} (ht : t.all (fun c => !c.isWhitespace) = true) :
    (t ++ ' ' :: r).takeWhile (fun c => !c.isWhitespace) = t := by
  induction t with
  | nil => simp [List.takeWhile_cons]
  | cons c cs ih =>
    simp only [List.all_cons, Bool.and_eq_true] at ht
    simp [List.takeWhile_cons, ht.1, ih ht.2]

theorem dropWhile_token {t r : Str} (ht : t.all (fun c => !c.isWhitespace) = true) :
    (t ++ ' ' :: r).dropWhile (fun c => !c.isWhitespace) = ' ' :: r := by
  induction t with
  | nil => simp [List.dropWhile_cons]
  | cons c cs ih =>
    simp only [List.all_cons, Bool.and_eq_true] at ht
    simp [List.dropWhile_cons, ht.1, ih ht.2]

theorem dropWhile_ws_token {t z : Str} (hne : t ≠ [])
    (ht : t.all (fun c => !c.isWhitespace) = true) :
    (t ++ z).dropWhile Char.isWhitespace = t ++ z := by
  cases t with
  | nil => exact absurd rfl hne
  | cons c cs =>
    simp only [List.all_cons, Bool.and_eq_true] at ht
    have : c.isWhitespace = false := by
      rcases ht with ⟨h1, _⟩
      cases h : c.isWhitespace
      · rfl
      · rw [h] at h1; simp at h1
    simp [List.dropWhile_cons, this]

theorem joinWith_cons (sep : Char) (t : Str) (ts : List Str) :
    joinWith sep (t :: ts)
      = t ++ (match ts with | [] => [] | _ :: _ => sep :: joinWith sep ts) := by
  cases ts with
  | nil => simp [joinWith]
  | cons u us => rfl

theorem pySplitCore_length (k : Nat) : ∀ cs : Str, (pySplitCore k cs).length ≤ k + 1 := by
  induction k with
  | zero =>
    intro cs
    cases cs with
    | nil => simp [pySplitCore]
    | cons c cs => simp [pySplitCore]
  | succ k ih =>
    intro cs
    cases cs with
    | nil => simp [pySplitCore]
    | cons c cs =>
      simp only [pySplitCore, List.length_cons]
      have := ih (((c :: cs).dropWhile (fun c => !c.isWhitespace)).dropWhile Char.isWhitespace)
      omega

theorem pySplit_joinWith (k : Nat) :
    ∀ ts : List Str, (∀ t ∈ ts, t ≠ [] ∧ t.all (fun c => !c.isWhitespace) = true) →
      pySplit k (joinWith ' ' ts)
        = if ts.length ≤ k + 1 then ts else ts.take k ++ [joinWith ' ' (ts.drop k)] := by
  induction k with
  | zero =>
    intro ts h
    cases ts with
    | nil => simp [pySplit, joinWith, pySplitCore]
    | cons t ts' =>
      obtain ⟨ht, hall⟩ := h t (List.mem_cons_self _ _)
      rw [joinWith_cons]
      unfold pySplit
      rw [dropWhile_ws_token ht hall]
      cases ts' with
      | nil =>
        cases t with
        | nil => exact absurd rfl ht
        | cons c cs => simp [pySplitCore, joinWith]
      | cons u us =>
        cases t with
        | nil => exact absurd rfl ht
        | cons c cs =>
          have hlen : ¬ ((c :: cs) :: u :: us).length ≤ 0 + 1 := by
            simp only [List.length_cons]
            omega
          rw [if_neg hlen]
          rfl
  | succ k ih =>
    intro ts h
    cases ts with
    | nil => simp [pySplit, joinWith, pySplitCore]
    | cons t ts' =>
      obtain ⟨ht, hall⟩ := h t (List.mem_cons_self _ _)
      rw [joinWith_cons]
      unfold pySplit
      rw [dropWhile_ws_token ht hall]
      cases ts' with
      | nil =>
        cases t with
        | nil => exact absurd rfl ht
        | cons c cs =>
          rw [List.append_nil]
          show (c :: cs).takeWhile (fun c => !c.isWhitespace)
              :: pySplitCore k (((c :: cs).dropWhile (fun c => !c.isWhitespace)).dropWhile Char.isWhitespace)
            = _
          rw [takeWhile_of_all hall, dropWhile_of_all hall]
          simp [pySplitCore]
      | cons u us =>
        have hu : u ≠ [] := (h u (by simp)).1
        have hurest : (∀ t ∈ u :: us, t ≠ [] ∧ t.all (fun c => !c.isWhitespace) = true) :=
          fun x hx => h x (List.mem_cons_of_mem _ hx)
        cases t with
        | nil => exact absurd rfl ht
        | cons c cs =>
          show (((c :: cs) ++ ' ' :: joinWith ' ' (u :: us)).takeWhile (fun c => !c.isWhitespace))
              :: pySplitCore k ((((c :: cs) ++ ' ' :: joinWith ' ' (u :: us)).dropWhile
                  (fun c => !c.isWhitespace)).dropWhile Char.isWhitespace)
            = _
          rw [takeWhile_token hall, dropWhile_token hall]
          have hdw : (' ' :: joinWith ' ' (u :: us)).dropWhile Char.isWhitespace
              = joinWith ' ' (u :: us) := by
            rw [List.dropWhile_cons]
            rw [if_pos (by decide)]
            rw [joinWith_cons]
            exact dropWhile_ws_token hu (h u (by simp)).2
          rw [hdw]
          have hrec := ih (u :: us) hurest
          unfold pySplit at hrec
          rw [joinWith_cons] at hrec
          rw [dropWhile_ws_token hu (h u (by simp)).2] at hrec
          rw [← joinWith_cons] at hrec
          rw [hrec]
          by_cases hlen : (u :: us).length ≤ k + 1
          · rw [if_pos hlen, if_pos (by simp at hlen ⊢; omega)]
          · rw [if_neg hlen, if_neg (by simp at hlen ⊢; omega)]
            simp

theorem parseRows_entry_source : ∀ (rows : List Str) (acc m : List (Str × Finset Nat)),
    parseRows rows acc = some m → ∀ e ∈ m, e ∈ acc ∨ ∃ line ∈ rows,
      isDataRow line ∧ (pySplit 4 (pyStrip line)).length > 4
        ∧ (pySplit 4 (pyStrip line)).getD 0 [] = e.1 := by
  intro rows
  induction rows with
  | nil =>
    intro acc m hp e he
    unfold parseRows at hp
    cases hp
    exact Or.inl he
  | cons line rest ih =>
    intro acc m hp e he
    unfold parseRows at hp
    by_cases hterm : dashes.isPrefixOf line = true ∨ pyStrip line = []
    · rw [if_pos hterm] at hp
      cases hp
      exact Or.inl he
    · rw [if_neg hterm] at hp
      by_cases hlen : (pySplit 4 (pyStrip line)).length > 4
      · rw [if_pos hlen] at hp
        cases hns : parse_missed_lines (pyStrip ((pySplit 4 (pyStrip line)).getD 4 [])) with
        | none => rw [hns] at hp; cases hp
        | some ns =>
          rw [hns] at hp
          rcases ih _ _ hp e he with hacc | ⟨l2, hl2, hd2, hlen2, hk2⟩
          · rcases mem_dictInsert hacc with h1 | h2
            · refine Or.inr ⟨line, List.mem_cons_self _ _,
                ⟨(not_or.mp hterm).1, (not_or.mp hterm).2⟩, hlen, ?_⟩
              rw [h1]
            · exact Or.inl h2
          · exact Or.inr ⟨l2, List.mem_cons_of_mem _ hl2, hd2, hlen2, hk2⟩
      · rw [if_neg hlen] at hp
        rcases ih _ _ hp e he with hacc | ⟨l2, hl2, hd2, hlen2, hk2⟩
        · exact Or.inl hacc
        · exact Or.inr ⟨l2, List.mem_cons_of_mem _ hl2, hd2, hlen2, hk2⟩

/-- C5: (1) the whitespace tokenization with `maxsplit=4` yields at most
5 fields; (2) on a row of whitespace-free fields joined by single
spaces it returns the first four fields plus the entire remainder —
internal spaces included — captured as the single trailing field;
(3) a data row with a fifth field contributes exactly
`filename ↦ set(parsed lines)` to the mapping under construction, and a
data row without one contributes nothing; (4) every entry of a produced
mapping stems from some data row with more than four fields whose first
field is the entry's file name — rows without a fifth field are absent
from the mapping. -/
theorem row_tokenization_and_contribution :
    (∀ s : Str, (pySplit 4 s).length ≤ 5)
    ∧ (∀ ts : List Str, (∀ t ∈ ts, t ≠ [] ∧ t.all (fun c => !c.isWhitespace) = true) →
        pySplit 4 (joinWith ' ' ts)
          = if ts.length ≤ 5 then ts else ts.take 4 ++ [joinWith ' ' (ts.drop 4)])
    ∧ (∀ line rest acc, isDataRow line →
        (∀ ns : List Nat, (pySplit 4 (pyStrip line)).length > 4 →
          parse_missed_lines (pyStrip ((pySplit 4 (pyStrip line)).getD 4 [])) = some ns →
          parseRows (line :: rest) acc
            = parseRows rest (dictInsert ((pySplit 4 (pyStrip line)).getD 0 []) ns.toFinset acc))
        ∧ (¬ (pySplit 4 (pyStrip line)).length > 4 →
            parseRows (line :: rest) acc = parseRows rest acc))
    ∧ (∀ rows m, parseRows rows [] = some m → ∀ e ∈ m, ∃ line ∈ rows,
        isDataRow line ∧ (pySplit 4 (pyStrip line)).length > 4
          ∧ (pySplit 4 (pyStrip line)).getD 0 [] = e.1) := by
  refine ⟨fun s => pySplitCore_length 4 _, fun ts h => pySplit_joinWith 4 ts h,
    fun line rest acc hd => ⟨fun ns hlen hns => ?_, fun hlen => ?_⟩, fun rows m hp e he => ?_⟩
  · conv_lhs => rw [parseRows]
    rw [if_neg (not_or.mpr ⟨hd.1, hd.2⟩), if_pos hlen, hns]
  · conv_lhs => rw [parseRows]
    rw [if_neg (not_or.mpr ⟨hd.1, hd.2⟩), if_neg hlen]
  · rcases parseRows_entry_source rows [] m hp e he with hacc | hsrc
    · cases hacc
    · exact hsrc

theorem row_tokenization_and_contribution_witness :
    (pySplit 4 [' ', 'a']).length ≤ 5
    ∧ pySplit 4 (joinWith ' ' [['a'], ['b']]) = [['a'], ['b']]
    ∧ isDataRow ['p', ' ', '1', ' ', '1', ' ', '0', ' ', '7']
    ∧ parseRows [['p', ' ', '1', ' ', '1', ' ', '0', ' ', '7']] []
        = parseRows [] (dictInsert ['p'] (List.toFinset [7]) [])
    ∧ parseRows [['p', ' ', '1', ' ', '1', ' ', '0']] [] = parseRows [] []
    ∧ ∃ line ∈ [['p', ' ', '1', ' ', '1', ' ', '0', ' ', '7']],
        isDataRow line ∧ (pySplit 4 (pyStrip line)).length > 4
          ∧ (pySplit 4 (pyStrip line)).getD 0 [] = ['p'] := by
  have h := row_tokenization_and_contribution
  refine ⟨h.1 [' ', 'a'], ?_, by decide, ?_, ?_, ?_⟩
  · have h2 := h.2.1 [['a'], ['b']] (by decide)
    simpa using h2
  · exact (h.2.2.1 ['p', ' ', '1', ' ', '1', ' ', '0', ' ', '7'] [] [] (by decide)).1
      [7] (by decide) (by decide)
  · exact (h.2.2.1 ['p', ' ', '1', ' ', '1', ' ', '0'] [] [] (by decide)).2 (by decide)
  · exact h.2.2.2 [['p', ' ', '1', ' ', '1', ' ', '0', ' ', '7']] [(['p'], List.toFinset [7])]
      (by decide) (['p'], List.toFinset [7]) (List.mem_singleton.mpr rfl)

theorem parseRows_cons_contrib {line : Str} (rest : List Str) (acc : List (Str × Finset Nat))
    (hd : isDataRow line) (hlen : (pySplit 4 (pyStrip line)).length > 4) {ns : List Nat}
    (hns : parse_missed_lines (pyStrip ((pySplit 4 (pyStrip line)).getD 4 [])) = some ns) :
    parseRows (line :: rest) acc
      = parseRows rest (dictInsert ((pySplit 4 (pyStrip line)).getD 0 []) ns.toFinset acc) := by
  conv_lhs => rw [parseRows]
  rw [if_neg (not_or.mpr ⟨hd.1, hd.2⟩), if_pos hlen, hns]

theorem parseRows_cons_skip {line : Str} (rest : List Str) (acc : List (Str × Finset Nat))
    (hd : isDataRow line) (hlen : ¬ (pySplit 4 (pyStrip line)).length > 4) :
    parseRows (line :: rest) acc = parseRows rest acc := by
  conv_lhs => rw [parseRows]
  rw [if_neg (not_or.mpr ⟨hd.1, hd.2⟩), if_neg hlen]

theorem rowEntry_of_contrib {line : Str} (hlen : (pySplit 4 (pyStrip line)).length > 4)
    {ns : List Nat}
    (hns : parse_missed_lines (pyStrip ((pySplit 4 (pyStrip line)).getD 4 [])) = some ns) :
    rowEntry line = some ((pySplit 4 (pyStrip line)).getD 0 [], ns.toFinset) := by
  unfold rowEntry
  rw [if_pos hlen, hns]
  rfl

theorem rowEntry_of_skip {line : Str} (hlen : ¬ (pySplit 4 (pyStrip line)).length > 4) :
    rowEntry line = none := by
  unfold rowEntry
  rw [if_neg hlen]

theorem parseRows_clean_foldl : ∀ (rows : List Str) (acc : List (Str × Finset Nat)),
    (∀ line ∈ rows, isDataRow line
      ∧ ((pySplit 4 (pyStrip line)).length > 4 →
          ∃ ns, parse_missed_lines (pyStrip ((pySplit 4 (pyStrip line)).getD 4 [])) = some ns)) →
    parseRows rows acc
      = some ((rows.filterMap rowEntry).foldl (fun m e => dictInsert e.1 e.2 m) acc) := by
  intro rows
  induction rows with
  | nil => intro acc _; rfl
  | cons line rest ih =>
    intro acc hclean
    obtain ⟨hd, hex⟩ := hclean line (List.mem_cons_self _ _)
    have hrest := fun l hl => hclean l (List.mem_cons_of_mem _ hl)
    by_cases hlen : (pySplit 4 (pyStrip line)).length > 4
    · obtain ⟨ns, hns⟩ := hex hlen
      rw [parseRows_cons_contrib rest acc hd hlen hns, ih _ hrest,
        List.filterMap_cons, rowEntry_of_contrib hlen hns]
      rfl
    · rw [parseRows_cons_skip rest acc hd hlen, ih _ hrest,
        List.filterMap_cons, rowEntry_of_skip hlen]

theorem dictLookup_foldl (F : Str) (entries : List (Str × Finset Nat)) :
    ∀ acc : List (Str × Finset Nat),
      dictLookup F (entries.foldl (fun m e => dictInsert e.1 e.2 m) acc)
        = match (entries.filter (fun e => e.1 = F)).getLast? with
          | some e => some e.2
          | none => dictLookup F acc := by
  induction entries using List.reverseRecOn with
  | nil => intro acc; rfl
  | append_singleton es e ih =>
    intro acc
    rw [List.foldl_append, List.foldl_cons, List.foldl_nil, List.filter_append]
    by_cases he : e.1 = F
    · rw [List.filter_cons]
      rw [if_pos (by simpa using he)]
      rw [List.filter_nil, List.getLast?_concat]
      rw [← he]
      exact dictLookup_dictInsert_self e.1 e.2 _
    · rw [List.filter_cons]
      rw [if_neg (by simpa using he)]
      rw [List.filter_nil, List.append_nil]
      rw [dictLookup_dictInsert_ne _ _ (fun hc => he hc.symm)]
      exact ih acc

/-- C10: with a well-formed report whose rows all carry a fifth field
that parses, the parser returns the fold of `dictInsert` over the rows'
contributions in order, and the value associated with any file name `F`
is the contribution of the last row naming `F` (earlier rows' sets are
overwritten); in particular, with two data rows naming the same file,
the later row's parsed set wins. -/
theorem duplicate_file_rows_later_wins (header sep : Str) (rows : List Str)
    (hsep : dashes.isPrefixOf sep = true)
    (hclean : ∀ line ∈ rows, isDataRow line
      ∧ ((pySplit 4 (pyStrip line)).length > 4 →
          ∃ ns, parse_missed_lines (pyStrip ((pySplit 4 (pyStrip line)).getD 4 [])) = some ns)) :
    parse_coverage_report (header :: sep :: rows)
      = some ((rows.filterMap rowEntry).foldl (fun m e => dictInsert e.1 e.2 m) [])
    ∧ ∀ F : Str,
        dictLookup F ((rows.filterMap rowEntry).foldl (fun m e => dictInsert e.1 e.2 m) [])
          = match ((rows.filterMap rowEntry).filter (fun e => e.1 = F)).getLast? with
            | some e => some e.2
            | none => none := by
  constructor
  · show (if dashes.isPrefixOf sep = true then parseRows rows [] else none) = _
    rw [if_pos hsep]
    exact parseRows_clean_foldl rows [] hclean
  · intro F
    rw [dictLookup_foldl F _ []]
    rfl

theorem duplicate_file_rows_later_wins_witness :
    parse_coverage_report
        [['h'], ['-', '-', '-', '-'],
          ['a', ' ', '1', ' ', '1', ' ', '0', ' ', '1'],
          ['a', ' ', '1', ' ', '1', ' ', '0', ' ', '2']]
      = some (([['a', ' ', '1', ' ', '1', ' ', '0', ' ', '1'],
          ['a', ' ', '1', ' ', '1', ' ', '0', ' ', '2']].filterMap rowEntry).foldl
            (fun m e => dictInsert e.1 e.2 m) [])
    ∧ dictLookup ['a']
        (([['a', ' ', '1', ' ', '1', ' ', '0', ' ', '1'],
          ['a', ' ', '1', ' ', '1', ' ', '0', ' ', '2']].filterMap rowEntry).foldl
            (fun m e => dictInsert e.1 e.2 m) [])
        = some (List.toFinset [2]) := by
  have hclean : ∀ line ∈ [['a', ' ', '1', ' ', '1', ' ', '0', ' ', '1'],
      ['a', ' ', '1', ' ', '1', ' ', '0', ' ', '2']], isDataRow line
      ∧ ((pySplit 4 (pyStrip line)).length > 4 →
          ∃ ns, parse_missed_lines (pyStrip ((pySplit 4 (pyStrip line)).getD 4 [])) = some ns) := by
    intro line hline
    rcases List.mem_cons.mp hline with h | h
    · subst h
      exact ⟨by decide, fun _ => ⟨[1], by decide⟩⟩
    · rcases List.mem_cons.mp h with h2 | h2
      · subst h2
        exact ⟨by decide, fun _ => ⟨[2], by decide⟩⟩
      · cases h2
  have h := duplicate_file_rows_later_wins ['h'] ['-', '-', '-', '-']
    [['a', ' ', '1', ' ', '1', ' ', '0', ' ', '1'],
      ['a', ' ', '1', ' ', '1', ' ', '0', ' ', '2']] (by decide) hclean
  refine ⟨h.1, (h.2 ['a']).trans (by decide)⟩

theorem tokLines_toFinset (t : RangeTok) : (tokLines t).toFinset = tokSet t := by
  cases t with
  | single n => simp [tokLines, tokSet]
  | range a b =>
    ext x
    simp only [tokLines, tokSet, List.mem_toFinset, List.mem_range'_1, Finset.mem_Icc]
    omega

theorem tokensParse_map_tokStr (toks : List RangeTok) :
    tokensParse (toks.map tokStr) = some (toks.flatMap tokLines) := by
  induction toks with
  | nil => rfl
  | cons t ts ih =>
    have htok : tokenParse (tokStr t) = some (tokLines t) := by
      cases t with
      | single n => exact tokenParse_single n
      | range a b => exact tokenParse_range a b
    simp only [List.map_cons, tokensParse, htok, ih, List.flatMap_cons]

theorem flatMap_tokLines_toFinset (toks : List RangeTok) :
    (toks.flatMap tokLines).toFinset = toks.foldr (fun t acc => tokSet t ∪ acc) ∅ := by
  induction toks with
  | nil => rfl
  | cons t ts ih => simp [List.flatMap_cons, List.toFinset_append, tokLines_toFinset, ih]

/-- C8: `parse_missed_lines` satisfies the spec's examples —
`1-3,5 ↦ [1,2,3,5]` and `7 ↦ [7]` — and, in general, parsing the
serialization of any nonempty list of single numbers and well-formed
inclusive ranges yields the concatenation of the represented lines,
whose set is the union of the represented sets; hence re-serializing a
sorted, disjoint range representation of a set and parsing it again
yields the same set. -/
theorem expand_ranges_spec :
    parse_missed_lines ['1', '-', '3', ',', '5'] = some [1, 2, 3, 5]
    ∧ parse_missed_lines ['7'] = some [7]
    ∧ ∀ toks : List RangeTok, toks ≠ [] → (∀ t ∈ toks, rangeTokOk t = true) →
        parse_missed_lines (serializeToks toks) = some (toks.flatMap tokLines)
        ∧ (toks.flatMap tokLines).toFinset
            = toks.foldr (fun t acc => tokSet t ∪ acc) ∅ := by
  refine ⟨rfl, rfl, fun toks hne hwf => ⟨?_, flatMap_tokLines_toFinset toks⟩⟩
  rw [parse_missed_lines_eq_tokensParse]
  unfold serializeToks
  rw [joinWith_not_mem_splitOnChar (by simpa using hne)
    (fun p hp => by
      obtain ⟨t, ht, rfl⟩ := List.mem_map.mp hp
      exact comma_not_mem_tokStr t)]
  exact tokensParse_map_tokStr toks

theorem expand_ranges_spec_witness :
    (([RangeTok.range 1 3, RangeTok.single 5] : List RangeTok) ≠ [])
    ∧ (∀ t ∈ ([RangeTok.range 1 3, RangeTok.single 5] : List RangeTok), rangeTokOk t = true)
    ∧ parse_missed_lines (serializeToks [RangeTok.range 1 3, RangeTok.single 5])
        = some [1, 2, 3, 5]
    ∧ ([1, 2, 3, 5] : List Nat).toFinset
        = ([RangeTok.range 1 3, RangeTok.single 5] : List RangeTok).foldr
            (fun t acc => tokSet t ∪ acc) ∅ := by
  have h := expand_ranges_spec.2.2 [RangeTok.range 1 3, RangeTok.single 5]
    (List.cons_ne_nil _ _) (by decide)
  exact ⟨List.cons_ne_nil _ _, by decide, h.1, h.2⟩
